import Mathlib

/-!
# Verification of the mathlib style linter (`scripts/lint-style.py`)

This file gives a shallow embedding of the style-lint scanner in Lean 4 and
proves (or refutes) the specification claims about it.

Modelling conventions:

* A Python string is a `List Char`; a Python "line" (as produced by
  `file.readlines()`) is a `List Char` normally ending in the character `'\n'`.
* Python `str.count(sub)` (non-overlapping occurrence count) is `countSub`;
  Python `sub in s` is `containsSub`; `s.startswith t` is `List.isPrefixOf`;
  `s.split(' ')` is `splitOnSpaceChar`; `s.split()` is `splitWs`.
* Python integer arithmetic is `Int` where a subtraction occurs.
* Code that can raise `IndexError` (out-of-range list indexing) returns
  `Except PyErr _`; a raised exception propagates and discards the
  accumulated results, exactly as an uncaught Python exception would.
* A file path is an opaque `List Char`; `Path.resolve()` is an arbitrary
  function parameter `resolve` supplied to the definitions that use it.
-/

set_option maxRecDepth 4000

namespace LintStyle

/-- A line of input, as returned by Python `readlines` (terminator included). -/
abbrev Line := List Char

/-- A file path (the string given on the command line). -/
abbrev Path := List Char

/-- A violation: `(errno, line_nr, path)`, mirroring the tuples of the script. -/
abbrev Err := Nat × Nat × Path

/-- One rendered output line of the reporter. -/
abbrev Output := List Char

/-- The exception that Python raises on an out-of-range sequence index. -/
inductive PyErr where
  | indexError
deriving DecidableEq, Repr

/-- `ERR_COP = 0`: copyright header. -/
def ERR_COP : Nat := 0
/-- `ERR_IMP = 1`: import statements. -/
def ERR_IMP : Nat := 1
/-- `ERR_MOD = 2`: module docstring. -/
def ERR_MOD : Nat := 2
/-- `ERR_LIN = 3`: line length. -/
def ERR_LIN : Nat := 3
/-- `ERR_SAV = 4`: the forbidden character. -/
def ERR_SAV : Nat := 4
/-- `ERR_RNT = 5`: reserved-notation commands. -/
def ERR_RNT : Nat := 5
/-- `ERR_OPT = 6`: forbidden `set_option`. -/
def ERR_OPT : Nat := 6

/-- Helper for `countSub`: scan the list; while `skip` is positive the
current position lies inside an already-counted occurrence and is passed
over. -/
def countSubAux (pat : List Char) : List Char → Nat → Nat
  | [], _ => 0
  | c :: rest, 0 =>
    if pat.isPrefixOf (c :: rest) then 1 + countSubAux pat rest (pat.length - 1)
    else countSubAux pat rest 0
  | _ :: rest, skip + 1 => countSubAux pat rest skip

/-- Python `s.count(pat)` for a nonempty `pat`: the number of
non-overlapping occurrences of `pat` in `s`, scanning left to right. -/
def countSub (pat l : List Char) : Nat :=
  countSubAux pat l 0

/-- Python `pat in s`: substring occurrence test. -/
def containsSub (pat : List Char) : List Char → Bool
  | [] => pat.isPrefixOf []
  | c :: rest => pat.isPrefixOf (c :: rest) || containsSub pat rest

/-- Python `s.split(' ')`: split at every single space, keeping empty parts
(so `"".split(' ') == ['']` and `"a  b".split(' ') == ['a', '', 'b']`). -/
def splitOnSpaceChar : List Char → List (List Char)
  | [] => [[]]
  | c :: rest =>
    if c = ' ' then [] :: splitOnSpaceChar rest
    else
      match splitOnSpaceChar rest with
      | [] => [[c]]
      | w :: ws => (c :: w) :: ws

/-- The whitespace characters recognised by Python `str.split()`. -/
def isWsChar (c : Char) : Bool :=
  c = ' ' || c = '\t' || c = '\n' || c = '\x0d' || c = '\x0b' || c = '\x0c'

/-- Helper for `splitWs`: split at every whitespace character, keeping
empty parts. -/
def splitAtWsChar : List Char → List (List Char)
  | [] => [[]]
  | c :: rest =>
    if isWsChar c then [] :: splitAtWsChar rest
    else
      match splitAtWsChar rest with
      | [] => [[c]]
      | w :: ws => (c :: w) :: ws

/-- Python `s.split()` (no argument): split on whitespace runs, dropping
empty parts (so `"".split() == []` and `"  ".split() == []`). -/
def splitWs (l : List Char) : List (List Char) :=
  (splitAtWsChar l).filter (fun w => !w.isEmpty)

/-- `enumerate(lines, 1)` restricted to a start index `n`:
pairs every line with its 1-based line number. -/
def enumL (n : Nat) : List Line → List (Nat × Line)
  | [] => []
  | l :: ls => (n, l) :: enumL (n + 1) ls

/-! ## Fixed marker strings of the script -/

/-- The line `"\n"`. -/
def nlL : Line := ['\n']
/-- The copyright block opener line: slash, dash, newline. -/
def openL : Line := ['/', '-', '\n']
/-- The copyright block closer line: dash, slash, newline. -/
def closeL : Line := ['-', '/', '\n']
/-- The block comment opening marker: slash, dash. -/
def openM : List Char := ['/', '-']
/-- The block comment closing marker: dash, slash. -/
def closeM : List Char := ['-', '/']
/-- The substring `"\""` (one double quote). -/
def quoteL : List Char := ['\"']
/-- The substring `"\\\""` (backslash followed by double quote). -/
def escQ : List Char := ['\\', '\"']
/-- The substring `"http"`. -/
def httpL : List Char := "http".toList
/-- The token `"import"`. -/
def importW : List Char := "import".toList
/-- The module docstring opener token: slash, dash, bang. -/
def moddocW : List Char := ['/', '-', '!']
/-- The token `"--"` (line comment marker). -/
def dashDashW : List Char := ['-', '-']
/-- The keyword `"reserve"`. -/
def reserveW : List Char := "reserve".toList
/-- The keyword `"precedence"`. -/
def precW : List Char := "precedence".toList
/-- The keyword `"set_option"`. -/
def setOptW : List Char := "set_option".toList
/-- The option prefix `"pp"`. -/
def ppW : List Char := ['p', 'p']
/-- The option prefix `"pr"`. -/
def prW : List Char := ['p', 'r']
/-- The option prefix `"tr"`. -/
def trW : List Char := ['t', 'r']
/-- The forbidden glyph `'ᾰ'` as a one-character substring. -/
def glyphL : List Char := ['ᾰ']
/-- The word `"Copyright"`. -/
def copyrightW : List Char := "Copyright".toList
/-- The word `"Apache"`. -/
def apacheW : List Char := "Apache".toList
/-- The word `"Author"`. -/
def authorW : List Char := "Author".toList
/-- The resolved path of the designated reserved-notation file,
`ROOT_DIR / 'src/tactic/reserved_notation.lean'`. -/
def RESERVED_NOTATION_FILE : Path := "src/tactic/reserved_notation.lean".toList

/-! ## The Line Classifier (`skip_comments` and `skip_string`) -/

/-- `skip_comments` of the script: drops lines inside block
comments, the line containing the closing marker, and blank lines.
The first argument is the running `in_comment` flag. -/
def skip_comments (inComment : Bool) : List (Nat × Line) → List (Nat × Line)
  | [] => []
  | (n, l) :: rest =>
    let c1 := if containsSub openM l then true else inComment
    if containsSub closeM l then skip_comments false rest
    else if l = nlL || c1 then skip_comments c1 rest
    else (n, l) :: skip_comments c1 rest

/-- `skip_string` of the script: additionally drops lines that contain a
double quote and lines inside (heuristically tracked) string literals.
The arguments are the running `in_string` and `in_comment` flags.
The toggle condition is the literal Python expression
`line.count("\"") - line.count("\\\"") % 2 == 1`, in which `%` binds
more tightly than `-`. -/
def skip_string (inString inComment : Bool) : List (Nat × Line) → List (Nat × Line)
  | [] => []
  | (n, l) :: rest =>
    let c1 := if !inString && containsSub openM l then true else inComment
    let c2 := if !inString && containsSub closeM l then false else c1
    if !c2 then
      let q : Int := countSub quoteL l
      let e : Int := countSub escQ l
      let s1 := if q - e % 2 = 1 then !inString else inString
      if q > 0 then skip_string s1 c2 rest
      else if s1 then skip_string s1 c2 rest
      else (n, l) :: skip_string s1 c2 rest
    else (n, l) :: skip_string inString c2 rest

/-! ## The check modules -/

/-- Loop body of `small_alpha_vrachy_check` over the filtered stream. -/
def sav_go (p : Path) : List (Nat × Line) → List Err
  | [] => []
  | (n, l) :: rest =>
    (if containsSub glyphL l then [(ERR_SAV, n, p)] else []) ++ sav_go p rest

/-- `small_alpha_vrachy_check(lines, path)`: flags every filtered line
containing the glyph `ᾰ`. -/
def small_alpha_vrachy_check (lines : List Line) (p : Path) : List Err :=
  sav_go p (skip_string false false (skip_comments false (enumL 1 lines)))

/-- Loop body of `reserved_notation_check` over the filtered stream. -/
def rnt_go (p : Path) : List (Nat × Line) → List Err
  | [] => []
  | (n, l) :: rest =>
    (if reserveW.isPrefixOf l || precW.isPrefixOf l then [(ERR_RNT, n, p)] else []) ++
      rnt_go p rest

/-- `reserved_notation_check(lines, path)`: flags `reserve`/`precedence`
commands, except in the designated reserved-notation file (compared by
resolved path). -/
def reserved_notation_check (resolve : Path → Path) (lines : List Line) (p : Path) :
    List Err :=
  if resolve p = RESERVED_NOTATION_FILE then []
  else rnt_go p (skip_string false false (skip_comments false (enumL 1 lines)))

/-- Loop body of `set_option_check`: `line.split(' ')[1]` raises
`IndexError` when the line has no space. -/
def opt_go (p : Path) : List (Nat × Line) → Except PyErr (List Err)
  | [] => .ok []
  | (n, l) :: rest =>
    if setOptW.isPrefixOf l then
      match (splitOnSpaceChar l).get? 1 with
      | none => .error .indexError
      | some tok =>
        let c2 := tok.take 2
        if c2 = ppW || c2 = prW || c2 = trW then
          (opt_go p rest).map (fun es => (ERR_OPT, n, p) :: es)
        else opt_go p rest
    else opt_go p rest

/-- `set_option_check(lines, path)`: flags `set_option pp…/pr…/tr…`. -/
def set_option_check (lines : List Line) (p : Path) : Except PyErr (List Err) :=
  opt_go p (skip_string false false (skip_comments false (enumL 1 lines)))

/-- Loop body of `long_lines_check` over raw enumerated lines. -/
def long_go (p : Path) (n : Nat) : List Line → List Err
  | [] => []
  | l :: rest =>
    (if containsSub httpL l then []
     else if 101 < l.length then [(ERR_LIN, n, p)] else []) ++ long_go p (n + 1) rest

/-- `long_lines_check(lines, path)`: flags raw lines longer than 101
characters (terminator included), except lines containing `http`. -/
def long_lines_check (lines : List Line) (p : Path) : List Err :=
  long_go p 1 lines

/-- Loop body of `import_only_check`: `line.split()[0]` raises `IndexError`
on a whitespace-only line that is not exactly `"\n"`. -/
def import_go (p : Path) : List (Nat × Line) → Except PyErr (Bool × List Err)
  | [] => .ok (true, [])
  | (n, l) :: rest =>
    match splitWs l with
    | [] => .error .indexError
    | w0 :: ws =>
      if w0 = dashDashW then import_go p rest
      else if w0 ≠ importW then .ok (false, [])
      else
        let here := match (w0 :: ws).get? 2 with
          | some w2 => if w2 = dashDashW then [] else [(ERR_IMP, n, p)]
          | none => []
        (import_go p rest).map (fun bes => (bes.1, here ++ bes.2))

/-- `import_only_check(lines, path)`: classifies the file as import-only and
flags multiple imports per line. -/
def import_only_check (lines : List Line) (p : Path) : Except PyErr (Bool × List Err) :=
  import_go p (skip_comments false (enumL 1 lines))

/-- Steps 6–9 of the `regular_check` loop body: split the line into words
(`IndexError` if there are none) and test for the module docstring or a
further import line.  `cont` is the remainder of the loop. -/
def reg_words_step (p : Path) (n : Nat) (l : Line) (cont : Except PyErr (List Err)) :
    Except PyErr (List Err) :=
  match splitWs l with
  | [] => .error .indexError
  | w0 :: ws =>
    if w0 ≠ importW ∧ w0 ≠ moddocW then .ok [(ERR_MOD, n, p)]
    else if w0 = moddocW then .ok []
    else
      let here := match (w0 :: ws).get? 2 with
        | some w2 => if w2 = dashDashW then [] else [(ERR_IMP, n, p)]
        | none => []
      cont.map (fun es => here ++ es)

/-- The loop of `regular_check`, with the scan state made explicit:
`started`/`done` are `copy_started`/`copy_done`, `startLn` is
`copy_start_line_nr` and `copyL` is the accumulated `copy_lines` buffer. -/
def regular_go (p : Path) (started done : Bool) (startLn : Nat) (copyL : List Char) :
    List (Nat × Line) → Except PyErr (List Err)
  | [] => .ok []
  | (n, l) :: rest =>
    if !started && l = nlL then
      (regular_go p started done startLn copyL rest).map
        (fun es => (ERR_COP, startLn, p) :: es)
    else if !started && l = openL then
      regular_go p true done n copyL rest
    else
      let e1 : List Err := if !started then [(ERR_COP, n, p)] else []
      if started && !done then
        let copyL2 := copyL ++ l
        if l = closeL then
          let e2 : List Err :=
            if !containsSub copyrightW copyL2 || !containsSub apacheW copyL2 ||
               !containsSub authorW copyL2 then
              [(ERR_COP, startLn, p)]
            else []
          (regular_go p started true startLn copyL2 rest).map (fun es => e2 ++ es)
        else regular_go p started done startLn copyL2 rest
      else if done && l = nlL then
        (regular_go p started done startLn copyL rest).map (fun es => e1 ++ es)
      else
        (reg_words_step p n l (regular_go p started done startLn copyL rest)).map
          (fun es => e1 ++ es)

/-- `regular_check(lines, path)`: the header / copyright / module-docstring
state machine. -/
def regular_check (lines : List Line) (p : Path) : Except PyErr (List Err) :=
  regular_go p false false 0 [] (enumL 1 lines)

/-! ## The Exception Registry and the Reporter -/

/-- The suppression test of `format_errors`: a violation is suppressed
exactly when `(errno, path.resolve())` is in the loaded exception list.
The violation's line number is not consulted. -/
def suppressedB (exc : List (Nat × Path)) (resolve : Path → Path) (e : Err) : Bool :=
  decide ((e.1, resolve e.2.2) ∈ exc)

/-- The rendered output lines for one violation (one line for each of the
seven recognised codes, nothing for an unrecognised code), mirroring the
chain of `if errno == …: print(…)` statements. -/
def renderErr (e : Err) : List Output :=
  (if e.1 = ERR_COP then
    [e.2.2 ++ " : line ".toList ++ Nat.toDigits 10 e.2.1 ++
      " : ERR_COP : Malformed or missing copyright header".toList] else []) ++
  (if e.1 = ERR_IMP then
    [e.2.2 ++ " : line ".toList ++ Nat.toDigits 10 e.2.1 ++
      " : ERR_IMP : More than one file imported per line".toList] else []) ++
  (if e.1 = ERR_MOD then
    [e.2.2 ++ " : line ".toList ++ Nat.toDigits 10 e.2.1 ++
      " : ERR_MOD : Module docstring missing, or too late".toList] else []) ++
  (if e.1 = ERR_LIN then
    [e.2.2 ++ " : line ".toList ++ Nat.toDigits 10 e.2.1 ++
      " : ERR_LIN : Line has more than 100 characters".toList] else []) ++
  (if e.1 = ERR_SAV then
    [e.2.2 ++ " : line ".toList ++ Nat.toDigits 10 e.2.1 ++
      " : ERR_SAV : File contains the character".toList ++ [' ', 'ᾰ']] else []) ++
  (if e.1 = ERR_RNT then
    [e.2.2 ++ " : line ".toList ++ Nat.toDigits 10 e.2.1 ++
      " : ERR_RNT : Reserved notation outside tactic.reserved_notation".toList] else []) ++
  (if e.1 = ERR_OPT then
    [e.2.2 ++ " : line ".toList ++ Nat.toDigits 10 e.2.1 ++
      " : ERR_OPT : Forbidden set_option command".toList] else [])

/-- `format_errors(errors)`: returns the printed lines and the contribution
to the global `new_exceptions` flag (`true` as soon as one violation is not
suppressed). -/
def format_errors (exc : List (Nat × Path)) (resolve : Path → Path) :
    List Err → List Output × Bool
  | [] => ([], false)
  | e :: rest =>
    let r := format_errors exc resolve rest
    if suppressedB exc resolve e then r
    else (renderErr e ++ r.1, true)

/-! ## The Driver -/

/-- The errors carried by a normally-completed check, or `[]` for a run
aborted by an exception (an uncaught exception loses the accumulated list). -/
def errsOfE : Except PyErr (List Err) → List Err
  | .error _ => []
  | .ok es => es

/-- The errors component of `import_only_check`'s result. -/
def errsOfB : Except PyErr (Bool × List Err) → List Err
  | .error _ => []
  | .ok bes => bes.2

/-- `lint(path)`: runs the checks on one file in the fixed order of the
script, printing after each check, and returns the printed lines plus the
`new_exceptions` flag contribution.  An `IndexError` raised by a check
propagates. -/
def lint (exc : List (Nat × Path)) (resolve : Path → Path) (lines : List Line)
    (p : Path) : Except PyErr (List Output × Bool) :=
  let r1 := format_errors exc resolve (long_lines_check lines p)
  match import_only_check lines p with
  | .error err => .error err
  | .ok (b, ierrs) =>
    if b then
      let r2 := format_errors exc resolve ierrs
      .ok (r1.1 ++ r2.1, r1.2 || r2.2)
    else
      match regular_check lines p with
      | .error err => .error err
      | .ok rerrs =>
        let r3 := format_errors exc resolve rerrs
        let r4 := format_errors exc resolve (small_alpha_vrachy_check lines p)
        let r5 := format_errors exc resolve (reserved_notation_check resolve lines p)
        match set_option_check lines p with
        | .error err => .error err
        | .ok oerrs =>
          let r6 := format_errors exc resolve oerrs
          .ok (r1.1 ++ r3.1 ++ r4.1 ++ r5.1 ++ r6.1,
               r1.2 || r3.2 || r4.2 || r5.2 || r6.2)

/-- The `for filename in sys.argv[1:]` loop: lint every file, concatenating
output and or-ing the `new_exceptions` flag. -/
def lintAll (exc : List (Nat × Path)) (resolve : Path → Path) :
    List (List Line × Path) → Except PyErr (List Output × Bool)
  | [] => .ok ([], false)
  | (lines, p) :: rest =>
    match lint exc resolve lines p with
    | .error err => .error err
    | .ok (o, f) =>
      (lintAll exc resolve rest).map (fun r => (o ++ r.1, f || r.2))

/-- The final exit status: `exit(1)` when `new_exceptions and
len(exceptions) > 0`, implicit success otherwise. -/
def mainExitCode (exc : List (Nat × Path)) (resolve : Path → Path)
    (files : List (List Line × Path)) : Except PyErr Nat :=
  (lintAll exc resolve files).map (fun r => if r.2 && !exc.isEmpty then 1 else 0)

/-! ## Specification-side ground truth for string literals

The claims speak of a glyph lying "inside a string literal" / "outside any
block comment".  The scanner itself only has the quote-counting heuristic,
so to *state* those claims we formalise the spec's notion directly: a
character-level scan in which a double quote opens a string literal, a
backslash inside a string escapes the next character, a closing quote ends
the literal, and (outside strings) the two-character comment markers open
and close a single-level block comment. -/

/-- One line of the spec-side scan.  State: `(inString, inComment)`.
Inside a string a backslash escapes the next character and a quote closes
the literal; outside, a quote opens a literal and the two-character markers
open and close a (single-level) block comment. -/
def specStrScan : List Char → Bool × Bool → Bool × Bool
  | [], st => st
  | [a], (true, c) =>
    if a = '\\' then (true, c) else if a = '\"' then (false, c) else (true, c)
  | [_], (false, true) => (false, true)
  | [a], (false, false) => if a = '\"' then (true, false) else (false, false)
  | a :: b :: rest, (true, c) =>
    if a = '\\' then specStrScan rest (true, c)
    else if a = '\"' then specStrScan (b :: rest) (false, c)
    else specStrScan (b :: rest) (true, c)
  | a :: b :: rest, (false, true) =>
    if a = '-' && b = '/' then specStrScan rest (false, false)
    else specStrScan (b :: rest) (false, true)
  | a :: b :: rest, (false, false) =>
    if a = '\"' then specStrScan (b :: rest) (true, false)
    else if a = '/' && b = '-' then specStrScan rest (false, true)
    else specStrScan (b :: rest) (false, false)

/-- The spec-side `(inString, inComment)` state after scanning a prefix of
the file's lines: the state in force at the start of the next line. -/
def specStateAfter (lines : List Line) : Bool × Bool :=
  lines.foldl (fun st l => specStrScan l st) (false, false)

/-! ## Theorems -/

/-- C2 (code bug): the claim — taken from the script's own inline comment —
says the in-string flag toggles exactly when the number of quote characters
minus the number of escaped-quote occurrences is odd.  On a line with three
quotes and no escaped quotes (difference 3, odd) the flag must toggle, so
the next line (inside the string) must be dropped; the code instead leaves
the flag unset and yields the next line, because `%` binds more tightly
than `-` in the Python expression, which therefore tests
`count - (escaped % 2) == 1` rather than oddness of the difference. -/
theorem c2_quote_toggle_mismatch :
    countSub quoteL ("x = \"a\" + \"\n".toList) = 3 ∧
    countSub escQ ("x = \"a\" + \"\n".toList) = 0 ∧
    skip_string false false
      [(1, "x = \"a\" + \"\n".toList), (2, "y\n".toList)] =
      [(2, "y\n".toList)] := by
  refine ⟨by decide, by decide, by decide⟩

/-- C3 (code bug): a line that starts with the `set_option` keyword but has
no space-separated second token makes the forbidden-directive check raise
`IndexError` (out-of-range access `line.split(' ')[1]`) instead of
emitting no violation and continuing. -/
theorem c3_set_option_no_argument_raises :
    set_option_check ["set_option\n".toList] ("f".toList) =
      .error .indexError := by
  rfl

/-- C9 (code bug): a line consisting solely of whitespace that is not the
bare newline string (here two spaces and a newline) makes both the
import-only check and the header check raise `IndexError`: `line.split()`
returns an empty token list and `[0]` is out of range, so scanning does not
terminate with a violation list. -/
theorem c9_whitespace_only_line_raises :
    import_only_check ["  \n".toList] ("f".toList) = .error .indexError ∧
    regular_check
      ["/-\n".toList, "Copyright Apache Author\n".toList, "-/\n".toList,
        "  \n".toList] ("f".toList) = .error .indexError := by
  exact ⟨rfl, rfl⟩

/-- C1 (counterexample): a file consisting of the single line importing a
module whose name contains the forbidden glyph is classified import-only;
the driver then reports nothing at all — in particular the
forbidden-character check, which would flag line 1, never runs, so its
violation is *not* reported, contrary to the claim. -/
theorem c1_counterexample :
    lint [] id ["import ᾰ\n".toList] ("f".toList) = .ok ([], false) ∧
    small_alpha_vrachy_check ["import ᾰ\n".toList] ("f".toList) =
      [(ERR_SAV, 1, "f".toList)] := by
  exact ⟨rfl, by decide⟩

/-- C5 (counterexample): a file whose first two lines are blank makes the
header check emit the violation triple `(ERR_COP, 0, path)` twice in a
single check pass, so a violation is not emitted at most once per
(kind, line, file) triple. -/
theorem c5_counterexample :
    regular_check [nlL, nlL] ("f".toList) =
      .ok [(ERR_COP, 0, "f".toList), (ERR_COP, 0, "f".toList)] ∧
    ¬ (errsOfE (regular_check [nlL, nlL] ("f".toList))).Nodup := by
  exact ⟨rfl, by decide⟩

/-- C6 (counterexample): the first line opens a string literal with its
third quote (`x = "a" + "` …), so the glyph on the second line lies inside
a string literal by the spec-side reading of string literals; yet the
forbidden-character check flags it, because the quote-parity heuristic does
not toggle on a three-quote line. -/
theorem c6_counterexample :
    specStateAfter ["x = \"a\" + \"\n".toList] = (true, false) ∧
    containsSub glyphL ("ᾰ\n".toList) = true ∧
    small_alpha_vrachy_check
      ["x = \"a\" + \"\n".toList, "ᾰ\n".toList] ("f".toList) =
      [(ERR_SAV, 2, "f".toList)] := by
  refine ⟨by decide, by decide, by decide⟩

/-- Inside an open copyright block that never sees the closing marker line,
`regular_go` consumes every remaining line into the buffer and emits
nothing. -/
theorem regular_go_in_block_no_close (p : Path) :
    ∀ (ls : List Line) (n st : Nat) (cl : List Char), (∀ l ∈ ls, l ≠ closeL) →
      regular_go p true false st cl (enumL n ls) = .ok [] := by
  intro ls
  induction ls with
  | nil => intro n st cl _; rfl
  | cons l ls ih =>
    intro n st cl h
    have hl : l ≠ closeL := h l (List.mem_cons_self l ls)
    simp only [enumL, regular_go, hl]
    simp
    exact ih (n + 1) st (cl ++ l) (fun x hx => h x (List.mem_cons_of_mem l hx))

/-- C10: for a file whose first line is exactly the copyright block opener
and that contains no later line exactly equal to the closer, the header /
copyright / module-doc check emits no violations at all: the unclosed
block absorbs every remaining line. -/
theorem c10_unclosed_copyright_absorbs (rest : List Line) (p : Path)
    (h : ∀ l ∈ rest, l ≠ closeL) :
    regular_check (openL :: rest) p = .ok [] := by
  have step : regular_check (openL :: rest) p =
      regular_go p true false 1 [] (enumL 2 rest) := by
    rfl
  rw [step]
  exact regular_go_in_block_no_close p rest 2 1 [] h

/-- C10 witness: a concrete unclosed-copyright file. -/
theorem c10_witness :
    regular_check [openL, "foo\n".toList] ("f".toList) = .ok [] :=
  c10_unclosed_copyright_absorbs ["foo\n".toList] ("f".toList) (by decide)

/-- C7: suppression is keyed only on the (kind, resolved path) pair: a
violation whose pair is in the registry contributes nothing to the
reporter's output or to the new-violations flag (removing all suppressed
violations beforehand changes nothing), and the suppression test never
consults the line number. -/
theorem c7_suppression_by_kind_and_path (exc : List (Nat × Path))
    (resolve : Path → Path) (errs : List Err) :
    format_errors exc resolve errs =
      format_errors exc resolve
        (errs.filter (fun e => !suppressedB exc resolve e)) ∧
    ∀ (k n1 n2 : Nat) (q : Path),
      suppressedB exc resolve (k, n1, q) = suppressedB exc resolve (k, n2, q) := by
  constructor
  · induction errs with
    | nil => rfl
    | cons e rest ih =>
      cases hs : suppressedB exc resolve e with
      | true => simp [format_errors, List.filter_cons, hs, ih]
      | false => simp [format_errors, List.filter_cons, hs, ih]
  · intro k n1 n2 q
    rfl

/-- Membership characterisation of the line-length check: a violation is
produced exactly for the raw lines that do not contain `http` and are
strictly longer than 101 characters (terminator included). -/
theorem long_go_mem_iff (p : Path) :
    ∀ (ls : List Line) (n : Nat) (e : Err),
      e ∈ long_go p n ls ↔
        ∃ i l, ls.get? i = some l ∧ e = (ERR_LIN, n + i, p) ∧
          containsSub httpL l = false ∧ 101 < l.length := by
  intro ls
  induction ls with
  | nil => intro n e; simp [long_go]
  | cons l ls ih =>
    intro n e
    simp only [long_go, List.mem_append, ih]
    constructor
    · rintro (hhd | ⟨i, l', hget, he, hh, hl⟩)
      · by_cases h1 : containsSub httpL l = true
        · simp [h1] at hhd
        · by_cases h2 : 101 < l.length
          · simp [h1, h2] at hhd
            exact ⟨0, l, rfl, by simp [hhd], by simpa using h1, h2⟩
          · simp [h1, h2] at hhd
      · refine ⟨i + 1, l', by simpa using hget, ?_, hh, hl⟩
        rw [he]
        have : n + 1 + i = n + (i + 1) := by omega
        rw [this]
    · rintro ⟨i, l', hget, he, hh, hl⟩
      cases i with
      | zero =>
        left
        simp only [List.get?] at hget
        cases hget
        simp [hh, hl, he]
      | succ j =>
        right
        refine ⟨j, l', by simpa using hget, ?_, hh, hl⟩
        rw [he]
        have : n + (j + 1) = n + 1 + j := by omega
        rw [this]

/-- C4: for every raw line of the form `content ++ newline` that does not
contain the substring `http`, the line-length check emits `ERR_LIN` for its
line number exactly when the content (the line excluding its terminator)
has 101 or more characters; in particular 100-character content never
violates and 101-character content always does. -/
theorem c4_long_lines_threshold (lines : List Line) (p : Path) (i : Nat)
    (c : List Char) (hget : lines.get? i = some (c ++ ['\n']))
    (hhttp : containsSub httpL (c ++ ['\n']) = false) :
    (ERR_LIN, i + 1, p) ∈ long_lines_check lines p ↔ 101 ≤ c.length := by
  unfold long_lines_check
  rw [long_go_mem_iff]
  constructor
  · rintro ⟨j, l, hg, he, _, hl⟩
    have hj : j = i := by
      have := congrArg (fun x : Err => x.2.1) he
      simp at this
      omega
    subst hj
    rw [hget] at hg
    cases hg
    simp at hl
    omega
  · intro hc
    refine ⟨i, c ++ ['\n'], hget, ?_, hhttp, by simp; omega⟩
    have : 1 + i = i + 1 := by omega
    rw [this]

/-- Every violation of the line-length check has kind `ERR_LIN`. -/
theorem long_go_kinds (p : Path) (ls : List Line) (n : Nat) :
    ∀ e ∈ long_go p n ls, e.1 = ERR_LIN := by
  intro e he
  obtain ⟨i, l, -, he, -, -⟩ := (long_go_mem_iff p ls n e).mp he
  rw [he]

/-- Every violation of the forbidden-character check comes from a yielded
line containing the glyph and carries that line's number. -/
theorem sav_go_mem (p : Path) :
    ∀ (xs : List (Nat × Line)) (e : Err), e ∈ sav_go p xs →
      ∃ x ∈ xs, e = (ERR_SAV, x.1, p) ∧ containsSub glyphL x.2 = true := by
  intro xs
  induction xs with
  | nil => intro e he; simp [sav_go] at he
  | cons x rest ih =>
    obtain ⟨n, l⟩ := x
    intro e he
    simp only [sav_go, List.mem_append] at he
    rcases he with he | he
    · by_cases hg : containsSub glyphL l = true
      · simp [hg] at he
        exact ⟨(n, l), List.mem_cons_self _ _, by simp [he], hg⟩
      · simp [hg] at he
    · obtain ⟨x, hx, hex⟩ := ih e he
      exact ⟨x, List.mem_cons_of_mem _ hx, hex⟩

/-- Conversely, every yielded line containing the glyph is flagged. -/
theorem sav_go_mem_intro (p : Path) :
    ∀ (xs : List (Nat × Line)) (x : Nat × Line), x ∈ xs →
      containsSub glyphL x.2 = true → (ERR_SAV, x.1, p) ∈ sav_go p xs := by
  intro xs
  induction xs with
  | nil => intro x hx; simp at hx
  | cons y rest ih =>
    obtain ⟨n, l⟩ := y
    intro x hx hg
    simp only [sav_go, List.mem_append]
    rcases List.mem_cons.mp hx with hx | hx
    · subst hx
      left
      simp [hg]
    · right
      exact ih x hx hg

/-- Every violation of the reserved-notation check comes from a yielded
line and carries that line's number and kind `ERR_RNT`. -/
theorem rnt_go_mem (p : Path) :
    ∀ (xs : List (Nat × Line)) (e : Err), e ∈ rnt_go p xs →
      ∃ x ∈ xs, e = (ERR_RNT, x.1, p) := by
  intro xs
  induction xs with
  | nil => intro e he; simp [rnt_go] at he
  | cons x rest ih =>
    obtain ⟨n, l⟩ := x
    intro e he
    simp only [rnt_go, List.mem_append] at he
    rcases he with he | he
    · by_cases hr : (reserveW.isPrefixOf l || precW.isPrefixOf l) = true
      · simp [hr] at he
        exact ⟨(n, l), List.mem_cons_self _ _, by simp [he]⟩
      · simp [hr] at he
    · obtain ⟨x, hx, hex⟩ := ih e he
      exact ⟨x, List.mem_cons_of_mem _ hx, hex⟩

/-- Every violation of a normally-completed forbidden-directive check comes
from a yielded line and carries that line's number and kind `ERR_OPT`. -/
theorem opt_go_mem (p : Path) :
    ∀ (xs : List (Nat × Line)) (e : Err), e ∈ errsOfE (opt_go p xs) →
      ∃ x ∈ xs, e = (ERR_OPT, x.1, p) := by
  intro xs
  induction xs with
  | nil => intro e he; simp [opt_go, errsOfE] at he
  | cons x rest ih =>
    obtain ⟨n, l⟩ := x
    intro e he
    simp only [opt_go] at he
    by_cases hs : setOptW.isPrefixOf l = true
    · rw [if_pos hs] at he
      cases hg : (splitOnSpaceChar l).get? 1 with
      | none => rw [hg] at he; simp [errsOfE] at he
      | some tok =>
        rw [hg] at he
        dsimp only at he
        by_cases hc : (tok.take 2 = ppW || tok.take 2 = prW || tok.take 2 = trW) = true
        · rw [if_pos hc] at he
          cases hrec : opt_go p rest with
          | error err => rw [hrec] at he; simp [errsOfE, Except.map] at he
          | ok es =>
            rw [hrec] at he
            simp [errsOfE, Except.map] at he
            rcases he with he | he
            · exact ⟨(n, l), List.mem_cons_self _ _, by simp [he]⟩
            · obtain ⟨x, hx, hex⟩ := ih e (by rw [hrec]; exact he)
              exact ⟨x, List.mem_cons_of_mem _ hx, hex⟩
        · rw [if_neg hc] at he
          obtain ⟨x, hx, hex⟩ := ih e he
          exact ⟨x, List.mem_cons_of_mem _ hx, hex⟩
    · rw [if_neg hs] at he
      obtain ⟨x, hx, hex⟩ := ih e he
      exact ⟨x, List.mem_cons_of_mem _ hx, hex⟩

/-- Every violation of a normally-completed import-only check comes from a
yielded line and carries that line's number and kind `ERR_IMP`. -/
theorem import_go_mem (p : Path) :
    ∀ (xs : List (Nat × Line)) (e : Err), e ∈ errsOfB (import_go p xs) →
      ∃ x ∈ xs, e = (ERR_IMP, x.1, p) := by
  intro xs
  induction xs with
  | nil => intro e he; simp [import_go, errsOfB] at he
  | cons x rest ih =>
    obtain ⟨n, l⟩ := x
    intro e he
    simp only [import_go] at he
    cases hsp : splitWs l with
    | nil => rw [hsp] at he; simp [errsOfB] at he
    | cons w0 ws =>
      rw [hsp] at he
      dsimp only at he
      by_cases h0 : w0 = dashDashW
      · rw [if_pos h0] at he
        obtain ⟨x, hx, hex⟩ := ih e he
        exact ⟨x, List.mem_cons_of_mem _ hx, hex⟩
      · rw [if_neg h0] at he
        by_cases h1 : w0 ≠ importW
        · rw [if_pos h1] at he
          simp [errsOfB] at he
        · rw [if_neg h1] at he
          cases hrec : import_go p rest with
          | error err => rw [hrec] at he; simp [errsOfB, Except.map] at he
          | ok bes =>
            rw [hrec] at he
            simp only [errsOfB, Except.map, List.mem_append] at he
            rcases he with he | he
            · cases hg : (w0 :: ws).get? 2 with
              | none => rw [hg] at he; simp at he
              | some w2 =>
                rw [hg] at he
                by_cases h2 : w2 = dashDashW
                · simp [h2] at he
                · simp [h2] at he
                  exact ⟨(n, l), List.mem_cons_self _ _, by simp [he]⟩
            · obtain ⟨x, hx, hex⟩ := ih e (by rw [hrec]; exact he)
              exact ⟨x, List.mem_cons_of_mem _ hx, hex⟩

/-- C1 (amended): for a file classified import-only, the driver reports
exactly the line-length violations (computed before classification) and the
import-only check's own violations, and nothing else: every reported
violation has kind `ERR_LIN` or `ERR_IMP`, so the forbidden-character,
reserved-notation and forbidden-directive checks never contribute — they
are skipped by the early return, contrary to the original claim. -/
theorem c1_import_only_skips_content_checks (exc : List (Nat × Path))
    (resolve : Path → Path) (lines : List Line) (p : Path) (ierrs : List Err)
    (h : import_only_check lines p = .ok (true, ierrs)) :
    lint exc resolve lines p =
      .ok ((format_errors exc resolve (long_lines_check lines p)).1 ++
             (format_errors exc resolve ierrs).1,
           (format_errors exc resolve (long_lines_check lines p)).2 ||
             (format_errors exc resolve ierrs).2) ∧
    (∀ e ∈ long_lines_check lines p, e.1 = ERR_LIN) ∧
    (∀ e ∈ ierrs, e.1 = ERR_IMP) := by
  refine ⟨?_, long_go_kinds p lines 1, ?_⟩
  · unfold lint
    rw [h]
    rfl
  · intro e he
    have h2 : errsOfB (import_go p (skip_comments false (enumL 1 lines))) = ierrs := by
      have h3 : import_go p (skip_comments false (enumL 1 lines)) =
          .ok (true, ierrs) := h
      rw [h3]
      rfl
    obtain ⟨x, -, hex⟩ := import_go_mem p _ e (h2 ▸ he)
    rw [hex]

/-- C1 witness: a concrete import-only file with a double import. -/
theorem c1_witness :
    lint [] id ["import a b\n".toList] ("f".toList) =
      .ok ((format_errors [] id
              (long_lines_check ["import a b\n".toList] ("f".toList))).1 ++
             (format_errors [] id [(ERR_IMP, 1, "f".toList)]).1,
           (format_errors [] id
              (long_lines_check ["import a b\n".toList] ("f".toList))).2 ||
             (format_errors [] id [(ERR_IMP, 1, "f".toList)]).2) :=
  (c1_import_only_skips_content_checks [] id ["import a b\n".toList]
    ("f".toList) [(ERR_IMP, 1, "f".toList)] (by rfl)).1

/-- Membership in an enumerated line list determines position. -/
theorem enumL_mem_iff :
    ∀ (ls : List Line) (m : Nat) (x : Nat × Line),
      x ∈ enumL m ls ↔ ∃ i, ls.get? i = some x.2 ∧ x.1 = m + i := by
  intro ls
  induction ls with
  | nil => intro m x; simp [enumL]
  | cons l ls ih =>
    intro m x
    simp only [enumL, List.mem_cons, ih]
    constructor
    · rintro (hx | ⟨i, hget, hi⟩)
      · exact ⟨0, by simp [hx], by simp [hx]⟩
      · exact ⟨i + 1, by simpa using hget, by omega⟩
    · rintro ⟨i, hget, hi⟩
      cases i with
      | zero =>
        left
        simp only [List.get?] at hget
        cases hget
        obtain ⟨x1, x2⟩ := x
        simp_all
      | succ j =>
        right
        exact ⟨j, by simpa using hget, by omega⟩

/-- Two stream elements with the same line number carry the same line. -/
theorem enumL_mem_eq {ls : List Line} {m n : Nat} {l l' : Line}
    (h1 : (n, l) ∈ enumL m ls) (h2 : (n, l') ∈ enumL m ls) : l = l' := by
  obtain ⟨i, hg1, hi1⟩ := (enumL_mem_iff ls m (n, l)).mp h1
  obtain ⟨j, hg2, hj2⟩ := (enumL_mem_iff ls m (n, l')).mp h2
  simp only at hg1 hg2 hi1 hj2
  have : i = j := by omega
  subst this
  rw [hg1] at hg2
  exact (Option.some.injEq _ _ ▸ hg2).symm ▸ rfl

/-- The comment filter yields a sublist of its input. -/
theorem skip_comments_sublist :
    ∀ (xs : List (Nat × Line)) (c : Bool), (skip_comments c xs).Sublist xs := by
  intro xs
  induction xs with
  | nil => intro c; simp [skip_comments]
  | cons x rest ih =>
    obtain ⟨n, l⟩ := x
    intro c
    simp only [skip_comments]
    repeat' split
    all_goals first
      | exact (ih _).cons _
      | exact (ih _).cons₂ _

/-- The string filter yields a sublist of its input. -/
theorem skip_string_sublist :
    ∀ (xs : List (Nat × Line)) (s c : Bool), (skip_string s c xs).Sublist xs := by
  intro xs
  induction xs with
  | nil => intro s c; simp [skip_string]
  | cons x rest ih =>
    obtain ⟨n, l⟩ := x
    intro s c
    simp only [skip_string]
    repeat' split
    all_goals first
      | exact (ih _ _).cons _
      | exact (ih _ _).cons₂ _

/-- No line yielded by the comment filter contains the opening marker:
such a line raises the in-comment flag and is itself dropped. -/
theorem skip_comments_no_open :
    ∀ (xs : List (Nat × Line)) (c : Bool) (x : Nat × Line),
      x ∈ skip_comments c xs → containsSub openM x.2 = false := by
  intro xs
  induction xs with
  | nil => intro c x hx; simp [skip_comments] at hx
  | cons y rest ih =>
    obtain ⟨n, l⟩ := y
    intro c x hx
    rw [skip_comments] at hx
    by_cases ho : containsSub openM l = true
    · simp only [ho, if_true] at hx
      split at hx
      · exact ih false x hx
      · split at hx
        · exact ih true x hx
        · rename_i hcond
          simp at hcond
    · simp only [ho, if_false, Bool.false_eq_true] at hx
      split at hx
      · exact ih false x hx
      · split at hx
        · exact ih c x hx
        · rcases List.mem_cons.mp hx with hx | hx
          · subst hx
            simpa using ho
          · exact ih c x hx

/-- Over a stream with no opening markers, every line yielded by the string
filter is quote-free (a line with a quote is always dropped). -/
theorem skip_string_no_quote :
    ∀ (xs : List (Nat × Line)) (s : Bool),
      (∀ x ∈ xs, containsSub openM x.2 = false) →
      ∀ x ∈ skip_string s false xs, countSub quoteL x.2 = 0 := by
  intro xs
  induction xs with
  | nil => intro s _ x hx; simp [skip_string] at hx
  | cons y rest ih =>
    obtain ⟨n, l⟩ := y
    intro s hno x hx
    have hl : containsSub openM l = false := hno (n, l) (List.mem_cons_self _ _)
    have hrest : ∀ x ∈ rest, containsSub openM x.2 = false :=
      fun z hz => hno z (List.mem_cons_of_mem _ hz)
    rw [skip_string] at hx
    simp only [hl, Bool.and_false, if_false, ite_self, Bool.not_false, if_true,
      Bool.false_eq_true] at hx
    repeat' split at hx
    all_goals first
      | exact ih _ hrest x hx
      | (rcases List.mem_cons.mp hx with hx | hx
         · subst hx
           show countSub quoteL l = 0
           omega
         · exact ih _ hrest x hx)

/-- Over a marker-free stream, the comment filter only removes the blank
lines. -/
theorem skip_comments_all :
    ∀ (xs : List (Nat × Line)),
      (∀ x ∈ xs, containsSub openM x.2 = false ∧ containsSub closeM x.2 = false) →
      skip_comments false xs = xs.filter (fun x => !decide (x.2 = nlL)) := by
  intro xs
  induction xs with
  | nil => intro _; simp [skip_comments]
  | cons y rest ih =>
    obtain ⟨n, l⟩ := y
    intro h
    obtain ⟨ho, hc⟩ := h (n, l) (List.mem_cons_self _ _)
    have hrest := fun z hz => h z (List.mem_cons_of_mem _ hz)
    rw [skip_comments]
    simp only [ho, hc, if_false, Bool.or_false, Bool.false_eq_true, List.filter_cons]
    by_cases hb : l = nlL
    · simp [hb, ih hrest]
    · simp [hb, ih hrest]

/-- Over a quote-free, marker-free stream, the string filter yields every
line unchanged. -/
theorem skip_string_all :
    ∀ (xs : List (Nat × Line)),
      (∀ x ∈ xs, countSub quoteL x.2 = 0 ∧ containsSub openM x.2 = false) →
      skip_string false false xs = xs := by
  intro xs
  induction xs with
  | nil => intro _; simp [skip_string]
  | cons y rest ih =>
    obtain ⟨n, l⟩ := y
    intro h
    obtain ⟨hq, ho⟩ := h (n, l) (List.mem_cons_self _ _)
    have hrest := fun z hz => h z (List.mem_cons_of_mem _ hz)
    rw [skip_string]
    simp only [ho, Bool.and_false, if_false, ite_self, Bool.not_false, if_true, hq,
      Bool.false_eq_true, Nat.cast_zero]
    have h1 : ¬ ((0 : Int) - (countSub escQ l : Int) % 2 = 1) := by omega
    rw [if_neg h1]
    have h2 : ¬ ((0 : Int) > 0) := by omega
    rw [if_neg h2]
    simp only [Bool.false_eq_true, if_false, ite_false]
    rw [ih hrest]

/-- C6 (amended): (a) a line containing a quote character — in particular
one whose glyph sits inside a string literal confined to that line — is
never flagged by the forbidden-character check, because any line with a
quote is dropped by the string filter; (b) in a file with no quote
characters and no block-comment markers (where every character is outside
any string literal and any block comment), every line containing the glyph
is flagged.  The original unconditional claim fails for multi-line string
literals (see the counterexample). -/
theorem c6_forbidden_char_filtering :
    (∀ (lines : List Line) (p : Path) (n : Nat) (l : Line),
        (n, l) ∈ enumL 1 lines → 0 < countSub quoteL l →
        ∀ e ∈ small_alpha_vrachy_check lines p, e.2.1 ≠ n) ∧
    (∀ (lines : List Line) (p : Path) (n : Nat) (l : Line),
        (∀ l' ∈ lines, countSub quoteL l' = 0 ∧ containsSub openM l' = false ∧
          containsSub closeM l' = false) →
        (n, l) ∈ enumL 1 lines → containsSub glyphL l = true →
        (ERR_SAV, n, p) ∈ small_alpha_vrachy_check lines p) := by
  constructor
  · intro lines p n l hmem hq e he hline
    obtain ⟨x, hx, hex, -⟩ := sav_go_mem p _ e he
    have hxq : countSub quoteL x.2 = 0 :=
      skip_string_no_quote _ false
        (fun z hz => skip_comments_no_open _ false z hz) x hx
    have hxe : x ∈ enumL 1 lines :=
      (skip_comments_sublist _ false).subset ((skip_string_sublist _ false false).subset hx)
    have hx1 : x.1 = n := by rw [hex] at hline; exact hline
    have : x.2 = l := by
      obtain ⟨x1, x2⟩ := x
      simp only at hx1
      subst hx1
      exact enumL_mem_eq hxe hmem
    rw [this] at hxq
    omega
  · intro lines p n l hfile hmem hg
    have henum : ∀ x ∈ enumL 1 lines, x.2 ∈ lines := by
      intro x hx
      obtain ⟨i, hget, -⟩ := (enumL_mem_iff lines 1 x).mp hx
      exact List.get?_mem hget
    have hsc : skip_comments false (enumL 1 lines) =
        (enumL 1 lines).filter (fun x => !decide (x.2 = nlL)) :=
      skip_comments_all _ (fun x hx =>
        ⟨(hfile x.2 (henum x hx)).2.1, (hfile x.2 (henum x hx)).2.2⟩)
    have hss : skip_string false false (skip_comments false (enumL 1 lines)) =
        skip_comments false (enumL 1 lines) :=
      skip_string_all _ (fun x hx =>
        have hx2 : x.2 ∈ lines :=
          henum x ((skip_comments_sublist _ false).subset hx)
        ⟨(hfile x.2 hx2).1, (hfile x.2 hx2).2.1⟩)
    unfold small_alpha_vrachy_check
    rw [hss, hsc]
    have hnl : l ≠ nlL := by
      intro hl
      rw [hl] at hg
      exact absurd hg (by decide)
    have : ((n, l) : Nat × Line) ∈
        (enumL 1 lines).filter (fun x => !decide (x.2 = nlL)) := by
      rw [List.mem_filter]
      exact ⟨hmem, by simp [hnl]⟩
    exact sav_go_mem_intro p _ (n, l) this hg

/-- C6 witness: a single-line string containing the glyph is not flagged; a
bare glyph line in a quote-free, marker-free file is flagged. -/
theorem c6_witness :
    (ERR_SAV, 1, ("f".toList : Path)) ∉
      small_alpha_vrachy_check ["s := \"ᾰ\"\n".toList] ("f".toList) ∧
    (ERR_SAV, 1, ("f".toList : Path)) ∈
      small_alpha_vrachy_check ["aᾰb\n".toList] ("f".toList) := by
  constructor
  · intro hmem
    exact c6_forbidden_char_filtering.1 ["s := \"ᾰ\"\n".toList] ("f".toList) 1
      ("s := \"ᾰ\"\n".toList) (by decide) (by decide) _ hmem rfl
  · exact c6_forbidden_char_filtering.2 ["aᾰb\n".toList] ("f".toList) 1
      ("aᾰb\n".toList) (by decide) (by decide) (by decide)

/-- Line numbers in an enumerated stream are bounded below by the start. -/
theorem enumL_fst_lb {ls : List Line} {m : Nat} {x : Nat × Line}
    (h : x ∈ enumL m ls) : m ≤ x.1 := by
  obtain ⟨i, -, hi⟩ := (enumL_mem_iff ls m x).mp h
  omega

/-- Line numbers in an enumerated stream are strictly increasing. -/
theorem enumL_pairwise :
    ∀ (ls : List Line) (m : Nat),
      (enumL m ls).Pairwise (fun a b => a.1 < b.1) := by
  intro ls
  induction ls with
  | nil => intro m; simp [enumL]
  | cons l ls ih =>
    intro m
    rw [enumL]
    refine List.Pairwise.cons ?_ (ih (m + 1))
    intro y hy
    have := enumL_fst_lb hy
    omega

/-- A violation list whose line numbers strictly increase has no duplicate
triples. -/
theorem pairwise_lines_nodup {es : List Err}
    (h : es.Pairwise (fun d f => d.2.1 < f.2.1)) : es.Nodup :=
  h.imp (fun {a b} hlt he => by rw [he] at hlt; exact lt_irrefl _ hlt)

/-- The forbidden-character check preserves strictly increasing line
numbers. -/
theorem sav_go_pairwise (p : Path) :
    ∀ (xs : List (Nat × Line)), xs.Pairwise (fun a b => a.1 < b.1) →
      (sav_go p xs).Pairwise (fun d f => d.2.1 < f.2.1) := by
  intro xs
  induction xs with
  | nil => intro _; simp [sav_go]
  | cons x rest ih =>
    obtain ⟨n, l⟩ := x
    intro hp
    rw [List.pairwise_cons] at hp
    obtain ⟨h1, h2⟩ := hp
    rw [sav_go]
    by_cases hg : containsSub glyphL l = true
    · simp only [hg, if_true, List.singleton_append]
      refine List.Pairwise.cons ?_ (ih h2)
      intro f hf
      obtain ⟨y, hy, hfy, -⟩ := sav_go_mem p rest f hf
      rw [hfy]
      exact h1 y hy
    · simp only [hg, if_false, Bool.false_eq_true, List.nil_append]
      exact ih h2

/-- The reserved-notation check preserves strictly increasing line
numbers. -/
theorem rnt_go_pairwise (p : Path) :
    ∀ (xs : List (Nat × Line)), xs.Pairwise (fun a b => a.1 < b.1) →
      (rnt_go p xs).Pairwise (fun d f => d.2.1 < f.2.1) := by
  intro xs
  induction xs with
  | nil => intro _; simp [rnt_go]
  | cons x rest ih =>
    obtain ⟨n, l⟩ := x
    intro hp
    rw [List.pairwise_cons] at hp
    obtain ⟨h1, h2⟩ := hp
    rw [rnt_go]
    by_cases hr : (reserveW.isPrefixOf l || precW.isPrefixOf l) = true
    · simp only [hr, if_true, List.singleton_append]
      refine List.Pairwise.cons ?_ (ih h2)
      intro f hf
      obtain ⟨y, hy, hfy⟩ := rnt_go_mem p rest f hf
      rw [hfy]
      exact h1 y hy
    · simp only [hr, if_false, Bool.false_eq_true, List.nil_append]
      exact ih h2

/-- The forbidden-directive check preserves strictly increasing line
numbers (on the errors of a normally-completed run). -/
theorem opt_go_pairwise (p : Path) :
    ∀ (xs : List (Nat × Line)), xs.Pairwise (fun a b => a.1 < b.1) →
      (errsOfE (opt_go p xs)).Pairwise (fun d f => d.2.1 < f.2.1) := by
  intro xs
  induction xs with
  | nil => intro _; simp [opt_go, errsOfE]
  | cons x rest ih =>
    obtain ⟨n, l⟩ := x
    intro hp
    rw [List.pairwise_cons] at hp
    obtain ⟨h1, h2⟩ := hp
    rw [opt_go]
    by_cases hs : setOptW.isPrefixOf l = true
    · rw [if_pos hs]
      cases hg : (splitOnSpaceChar l).get? 1 with
      | none => simp [errsOfE]
      | some tok =>
        dsimp only
        by_cases hc : (tok.take 2 = ppW || tok.take 2 = prW || tok.take 2 = trW) = true
        · rw [if_pos hc]
          cases hrec : opt_go p rest with
          | error err => simp [errsOfE, Except.map]
          | ok es =>
            simp only [errsOfE, Except.map]
            refine List.Pairwise.cons ?_ ?_
            · intro f hf
              obtain ⟨y, hy, hfy⟩ := opt_go_mem p rest f (by rw [hrec]; exact hf)
              rw [hfy]
              exact h1 y hy
            · have := ih h2
              rw [hrec] at this
              exact this
        · rw [if_neg hc]
          exact ih h2
    · rw [if_neg hs]
      exact ih h2

/-- The import-only check preserves strictly increasing line numbers (on
the errors of a normally-completed run). -/
theorem import_go_pairwise (p : Path) :
    ∀ (xs : List (Nat × Line)), xs.Pairwise (fun a b => a.1 < b.1) →
      (errsOfB (import_go p xs)).Pairwise (fun d f => d.2.1 < f.2.1) := by
  intro xs
  induction xs with
  | nil => intro _; simp [import_go, errsOfB]
  | cons x rest ih =>
    obtain ⟨n, l⟩ := x
    intro hp
    rw [List.pairwise_cons] at hp
    obtain ⟨h1, h2⟩ := hp
    rw [import_go]
    cases hsp : splitWs l with
    | nil => simp [errsOfB]
    | cons w0 ws =>
      dsimp only
      by_cases h0 : w0 = dashDashW
      · rw [if_pos h0]
        exact ih h2
      · rw [if_neg h0]
        by_cases hi : w0 ≠ importW
        · rw [if_pos hi]
          simp [errsOfB]
        · rw [if_neg hi]
          cases hrec : import_go p rest with
          | error err => simp [errsOfB, Except.map]
          | ok bes =>
            simp only [errsOfB, Except.map]
            rw [List.pairwise_append]
            refine ⟨?_, ?_, ?_⟩
            · cases hg : (w0 :: ws).get? 2 with
              | none => simp
              | some w2 =>
                by_cases h2' : w2 = dashDashW
                · simp [h2']
                · simp [h2']
            · have := ih h2
              rw [hrec] at this
              exact this
            · intro a ha b hb
              obtain ⟨y, hy, hby⟩ := import_go_mem p rest b (by rw [hrec]; exact hb)
              have ha' : a.2.1 = n := by
                cases hg : (w0 :: ws).get? 2 with
                | none => rw [hg] at ha; simp at ha
                | some w2 =>
                  rw [hg] at ha
                  by_cases h2' : w2 = dashDashW
                  · simp [h2'] at ha
                  · simp [h2'] at ha
                    rw [ha]
              rw [hby, ha']
              exact h1 y hy

/-- Structural facts about the header check: every violation lies at or
after the current line or is the copyright violation at the recorded start
line; every violation has kind `ERR_COP`, `ERR_MOD` or `ERR_IMP`; and once
the copyright block is closed (`started` and `done` both set) no further
`ERR_COP` is emitted. -/
theorem regular_go_facts (p : Path) :
    ∀ (ls : List Line) (n : Nat) (s d : Bool) (st : Nat) (cl : List Char) (e : Err),
      e ∈ errsOfE (regular_go p s d st cl (enumL n ls)) →
      (n ≤ e.2.1 ∨ e = (ERR_COP, st, p)) ∧
      (e.1 = ERR_COP ∨ e.1 = ERR_MOD ∨ e.1 = ERR_IMP) ∧
      (s = true → d = true → e.1 = ERR_MOD ∨ e.1 = ERR_IMP) := by
  intro ls
  induction ls with
  | nil => intro n s d st cl e he; simp [enumL, regular_go, errsOfE] at he
  | cons l ls ih =>
    intro n s d st cl e he
    rw [enumL, regular_go] at he
    by_cases h1 : (!s && decide (l = nlL)) = true
    · rw [if_pos h1] at he
      have hs : s = false := by revert h1; cases s <;> simp
      cases hrec : regular_go p s d st cl (enumL (n + 1) ls) with
      | error err => rw [hrec] at he; simp [errsOfE, Except.map] at he
      | ok es =>
        rw [hrec] at he
        simp only [errsOfE, Except.map, List.mem_cons] at he
        rcases he with rfl | he
        · exact ⟨Or.inr rfl, Or.inl rfl, fun hst _ => by rw [hs] at hst; cases hst⟩
        · obtain ⟨ha, hb, hc⟩ := ih (n + 1) s d st cl e (by rw [hrec]; exact he)
          refine ⟨?_, hb, hc⟩
          rcases ha with h | h
          · exact Or.inl (by omega)
          · exact Or.inr h
    · rw [if_neg h1] at he
      by_cases h2 : (!s && decide (l = openL)) = true
      · rw [if_pos h2] at he
        have hs : s = false := by revert h2; cases s <;> simp
        obtain ⟨ha, hb, -⟩ := ih (n + 1) true d n cl e he
        refine ⟨?_, hb, fun hst _ => by rw [hs] at hst; cases hst⟩
        rcases ha with h | h
        · exact Or.inl (by omega)
        · rw [h]
          exact Or.inl (Nat.le_refl n)
      · rw [if_neg h2] at he
        by_cases h3 : (s && !d) = true
        · have hs : s = true := by revert h3; cases s <;> simp
          have hd : d = false := by revert h3; cases d <;> simp
          rw [if_pos h3] at he
          by_cases h4 : l = closeL
          · rw [if_pos h4] at he
            cases hrec : regular_go p s true st (cl ++ l) (enumL (n + 1) ls) with
            | error err => rw [hrec] at he; simp [errsOfE, Except.map] at he
            | ok es =>
              rw [hrec] at he
              simp only [errsOfE, Except.map, List.mem_append] at he
              rcases he with he | he
              · split at he
                · rcases List.mem_singleton.mp he with rfl
                  exact ⟨Or.inr rfl, Or.inl rfl, fun _ hdt => by rw [hd] at hdt; cases hdt⟩
                · simp at he
              · obtain ⟨ha, hb, -⟩ := ih (n + 1) s true st (cl ++ l) e (by rw [hrec]; exact he)
                refine ⟨?_, hb, fun _ hdt => by rw [hd] at hdt; cases hdt⟩
                rcases ha with h | h
                · exact Or.inl (by omega)
                · exact Or.inr h
          · rw [if_neg h4] at he
            obtain ⟨ha, hb, -⟩ := ih (n + 1) s d st (cl ++ l) e he
            refine ⟨?_, hb, fun _ hdt => by rw [hd] at hdt; cases hdt⟩
            rcases ha with h | h
            · exact Or.inl (by omega)
            · exact Or.inr h
        · rw [if_neg h3] at he
          by_cases h5 : (d && decide (l = nlL)) = true
          · have hd : d = true := by revert h5; cases d <;> simp
            rw [if_pos h5] at he
            cases hrec : regular_go p s d st cl (enumL (n + 1) ls) with
            | error err => rw [hrec] at he; simp [errsOfE, Except.map] at he
            | ok es =>
              rw [hrec] at he
              simp only [errsOfE, Except.map, List.mem_append] at he
              rcases he with he | he
              · split at he
                · rename_i hns
                  have hs : s = false := by revert hns; cases s <;> simp
                  rcases List.mem_singleton.mp he with rfl
                  exact ⟨Or.inl (Nat.le_refl n), Or.inl rfl,
                    fun hst _ => by rw [hs] at hst; cases hst⟩
                · simp at he
              · obtain ⟨ha, hb, hc⟩ := ih (n + 1) s d st cl e (by rw [hrec]; exact he)
                refine ⟨?_, hb, hc⟩
                rcases ha with h | h
                · exact Or.inl (by omega)
                · exact Or.inr h
          · rw [if_neg h5] at he
            rw [reg_words_step] at he
            cases hsp : splitWs l with
            | nil => rw [hsp] at he; simp [errsOfE, Except.map] at he
            | cons w0 ws =>
              rw [hsp] at he
              dsimp only at he
              by_cases hA : (w0 ≠ importW ∧ w0 ≠ moddocW)
              · rw [if_pos hA] at he
                simp only [errsOfE, Except.map, List.mem_append] at he
                rcases he with he | he
                · split at he
                  · rename_i hns
                    have hs : s = false := by revert hns; cases s <;> simp
                    rcases List.mem_singleton.mp he with rfl
                    exact ⟨Or.inl (Nat.le_refl n), Or.inl rfl,
                      fun hst _ => by rw [hs] at hst; cases hst⟩
                  · simp at he
                · rcases List.mem_singleton.mp he with rfl
                  exact ⟨Or.inl (Nat.le_refl n), Or.inr (Or.inl rfl), fun _ _ => Or.inl rfl⟩
              · rw [if_neg hA] at he
                by_cases hB : w0 = moddocW
                · rw [if_pos hB] at he
                  simp only [errsOfE, Except.map, List.append_nil] at he
                  split at he
                  · rename_i hns
                    have hs : s = false := by revert hns; cases s <;> simp
                    rcases List.mem_singleton.mp he with rfl
                    exact ⟨Or.inl (Nat.le_refl n), Or.inl rfl,
                      fun hst _ => by rw [hs] at hst; cases hst⟩
                  · simp at he
                · rw [if_neg hB] at he
                  cases hrec : regular_go p s d st cl (enumL (n + 1) ls) with
                  | error err => rw [hrec] at he; simp [errsOfE, Except.map] at he
                  | ok es =>
                    rw [hrec] at he
                    simp only [errsOfE, Except.map, List.mem_append] at he
                    rcases he with he | he | he
                    · split at he
                      · rename_i hns
                        have hs : s = false := by revert hns; cases s <;> simp
                        rcases List.mem_singleton.mp he with rfl
                        exact ⟨Or.inl (Nat.le_refl n), Or.inl rfl,
                          fun hst _ => by rw [hs] at hst; cases hst⟩
                      · simp at he
                    · have : e = (ERR_IMP, n, p) := by
                        cases hg : (w0 :: ws).get? 2 with
                        | none => rw [hg] at he; simp at he
                        | some w2 =>
                          rw [hg] at he
                          by_cases h2' : w2 = dashDashW
                          · simp [h2'] at he
                          · simp [h2'] at he
                            exact he
                      rcases this with rfl
                      exact ⟨Or.inl (Nat.le_refl n), Or.inr (Or.inr rfl), fun _ _ => Or.inr rfl⟩
                    · obtain ⟨ha, hb, hc⟩ := ih (n + 1) s d st cl e (by rw [hrec]; exact he)
                      refine ⟨?_, hb, hc⟩
                      rcases ha with h | h
                      · exact Or.inl (by omega)
                      · exact Or.inr h

/-- The header check never emits the same violation triple twice, except
for the copyright violation at line 0 (emitted once per leading blank
line): after removing `(ERR_COP, 0, path)` the emitted list has no
duplicates.  The state hypotheses hold for the initial state. -/
theorem regular_go_filter_nodup (p : Path) :
    ∀ (ls : List Line) (n : Nat) (s d : Bool) (st : Nat) (cl : List Char),
      1 ≤ n → (s = false → d = false ∧ st = 0) →
      ((errsOfE (regular_go p s d st cl (enumL n ls))).filter
        (fun e => !decide (e = (ERR_COP, 0, p)))).Nodup := by
  intro ls
  induction ls with
  | nil => intro n s d st cl _ _; simp [enumL, regular_go, errsOfE]
  | cons l ls ih =>
    intro n s d st cl hn hsd
    rw [enumL, regular_go]
    by_cases h1 : (!s && decide (l = nlL)) = true
    · rw [if_pos h1]
      have hs : s = false := by revert h1; cases s <;> simp
      have hst : st = 0 := (hsd hs).2
      cases hrec : regular_go p s d st cl (enumL (n + 1) ls) with
      | error err => simp [errsOfE, Except.map]
      | ok es =>
        simp only [errsOfE, Except.map]
        subst hst
        rw [List.filter_cons]
        have hdrop : (!decide (((ERR_COP, 0, p) : Err) = (ERR_COP, 0, p))) = false := by
          simp
        rw [hdrop]
        simp only [Bool.false_eq_true, if_false, ite_false]
        have hih := ih (n + 1) s d 0 cl (by omega) hsd
        rw [hrec] at hih
        exact hih
    · rw [if_neg h1]
      by_cases h2 : (!s && decide (l = openL)) = true
      · rw [if_pos h2]
        exact ih (n + 1) true d n cl (by omega) (fun hf => Bool.noConfusion hf)
      · rw [if_neg h2]
        by_cases h3 : (s && !d) = true
        · have hs : s = true := by revert h3; cases s <;> simp
          have hd : d = false := by revert h3; cases d <;> simp
          rw [if_pos h3]
          by_cases h4 : l = closeL
          · rw [if_pos h4]
            cases hrec : regular_go p s true st (cl ++ l) (enumL (n + 1) ls) with
            | error err => simp [errsOfE, Except.map]
            | ok es =>
              simp only [errsOfE, Except.map]
              rw [List.filter_append]
              have hFes : (es.filter
                  (fun e => !decide (e = (ERR_COP, 0, p)))).Nodup := by
                have hih := ih (n + 1) s true st (cl ++ l) (by omega)
                  (fun hf => by rw [hf] at hs; exact Bool.noConfusion hs)
                rw [hrec] at hih
                exact hih
              have hnocop : ∀ a ∈ es, a.1 ≠ ERR_COP := by
                intro a ha
                have hk := (regular_go_facts p ls (n + 1) s true st (cl ++ l) a
                  (by rw [hrec]; exact ha)).2.2 hs rfl
                rcases hk with hk | hk
                · rw [hk]; decide
                · rw [hk]; decide
              refine List.Nodup.append ?_ hFes ?_
              · refine List.Nodup.filter _ ?_
                split
                · exact List.nodup_singleton _
                · exact List.nodup_nil
              · intro a ha1 ha2
                have ha1' := List.mem_filter.mp ha1
                have ha2' := List.mem_filter.mp ha2
                have haeq : a = (ERR_COP, st, p) := by
                  have := ha1'.1
                  split at this
                  · exact List.mem_singleton.mp this
                  · exact absurd this (List.not_mem_nil a)
                have := hnocop a ha2'.1
                rw [haeq] at this
                exact this rfl
          · rw [if_neg h4]
            exact ih (n + 1) s d st (cl ++ l) (by omega)
              (fun hf => by rw [hf] at hs; exact Bool.noConfusion hs)
        · rw [if_neg h3]
          by_cases h5 : (d && decide (l = nlL)) = true
          · have hd : d = true := by revert h5; cases d <;> simp
            have hs : s = true := by
              cases hq : s
              · have h6 := (hsd hq).1
                rw [h6] at hd
                exact Bool.noConfusion hd
              · rfl
            rw [if_pos h5]
            cases hrec : regular_go p s d st cl (enumL (n + 1) ls) with
            | error err => simp [errsOfE, Except.map]
            | ok es =>
              simp only [errsOfE, Except.map, hs, Bool.not_true, Bool.false_eq_true,
                if_false, ite_false, List.nil_append]
              have hih := ih (n + 1) s d st cl (by omega) hsd
              rw [hrec] at hih
              exact hih
          · rw [if_neg h5]
            rw [reg_words_step]
            cases hsp : splitWs l with
            | nil => simp [errsOfE, Except.map]
            | cons w0 ws =>
              dsimp only
              by_cases hA : (w0 ≠ importW ∧ w0 ≠ moddocW)
              · rw [if_pos hA]
                simp only [errsOfE, Except.map]
                refine List.Nodup.filter _ ?_
                cases hq : s
                · simp only [hq, Bool.not_false, if_true, ite_true]
                  simp only [List.cons_append, List.nil_append, List.nodup_cons,
                    List.mem_singleton, List.not_mem_nil, or_false, and_true,
                    List.nodup_singleton, not_false_iff]
                  refine ⟨fun hcon => ?_, trivial, List.nodup_nil⟩
                  have := congrArg (fun x : Err => x.1) hcon
                  simp [ERR_COP, ERR_MOD] at this
                · simp only [hq, Bool.not_true, Bool.false_eq_true, if_false, ite_false,
                    List.nil_append]
                  exact List.nodup_singleton _
              · rw [if_neg hA]
                by_cases hB : w0 = moddocW
                · rw [if_pos hB]
                  simp only [errsOfE, Except.map, List.append_nil]
                  refine List.Nodup.filter _ ?_
                  split
                  · exact List.nodup_singleton _
                  · exact List.nodup_nil
                · rw [if_neg hB]
                  cases hrec : regular_go p s d st cl (enumL (n + 1) ls) with
                  | error err => simp [errsOfE, Except.map]
                  | ok es =>
                    simp only [errsOfE, Except.map]
                    have hFes : (es.filter
                        (fun e => !decide (e = (ERR_COP, 0, p)))).Nodup := by
                      have hih := ih (n + 1) s d st cl (by omega) hsd
                      rw [hrec] at hih
                      exact hih
                    have himp : ((ERR_IMP, n, p) : Err) ∉
                        es.filter (fun e => !decide (e = (ERR_COP, 0, p))) := by
                      intro hmem
                      obtain ⟨hmem, -⟩ := List.mem_filter.mp hmem
                      have hf1 := (regular_go_facts p ls (n + 1) s d st cl _
                        (by rw [hrec]; exact hmem)).1
                      rcases hf1 with hf1 | hf1
                      · have hf1' : n + 1 ≤ n := hf1
                        omega
                      · have := congrArg (fun x : Err => x.1) hf1
                        simp [ERR_IMP, ERR_COP] at this
                    have hHere : ∀ (hh : List Err),
                        (hh = [] ∨ hh = [(ERR_IMP, n, p)]) →
                        ((hh ++ es).filter
                          (fun e => !decide (e = (ERR_COP, 0, p)))).Nodup := by
                      intro hh hcases
                      rcases hcases with rfl | rfl
                      · simpa using hFes
                      · have h9 : (!decide (((ERR_IMP, n, p) : Err) = (ERR_COP, 0, p))) = true := by
                          simp only [Bool.not_eq_true', decide_eq_false_iff_not]
                          intro hcon
                          have := congrArg (fun x : Err => x.1) hcon
                          simp [ERR_IMP, ERR_COP] at this
                        simp only [List.cons_append, List.nil_append, List.filter_cons,
                          h9, if_true, ite_true, List.nodup_cons]
                        exact ⟨himp, hFes⟩
                    have hhere : (match (w0 :: ws).get? 2 with
                        | some w2 => if w2 = dashDashW then ([] : List Err)
                          else [(ERR_IMP, n, p)]
                        | none => []) = [] ∨
                        (match (w0 :: ws).get? 2 with
                        | some w2 => if w2 = dashDashW then ([] : List Err)
                          else [(ERR_IMP, n, p)]
                        | none => []) = [(ERR_IMP, n, p)] := by
                      cases hg : (w0 :: ws).get? 2 with
                      | none => exact Or.inl rfl
                      | some w2 =>
                        by_cases h2' : w2 = dashDashW
                        · simp [h2']
                        · simp [h2']
                    cases hq : s
                    · have hst : st = 0 := (hsd hq).2
                      have hd : d = false := (hsd hq).1
                      simp only [hq, Bool.not_false, if_true, ite_true]
                      have h7 : (!decide (((ERR_COP, n, p) : Err) = (ERR_COP, 0, p))) = true := by
                        simp only [Bool.not_eq_true', decide_eq_false_iff_not]
                        intro hcon
                        have := congrArg (fun x : Err => x.2.1) hcon
                        simp at this
                        omega
                      simp only [List.cons_append, List.nil_append, List.filter_cons, h7,
                        if_true, ite_true, List.nodup_cons]
                      constructor
                      · intro hmem
                        rw [List.mem_filter] at hmem
                        obtain ⟨hmem, hpred⟩ := hmem
                        rcases List.mem_append.mp hmem with hmem | hmem
                        · rcases hhere with hh | hh
                          · rw [hh] at hmem
                            exact List.not_mem_nil _ hmem
                          · rw [hh] at hmem
                            have := List.mem_singleton.mp hmem
                            have := congrArg (fun x : Err => x.1) this
                            simp [ERR_COP, ERR_IMP] at this
                        · have hf1 := (regular_go_facts p ls (n + 1) s d st cl _
                            (by rw [hrec]; exact hmem)).1
                          rcases hf1 with hf1 | hf1
                          · have hf1' : n + 1 ≤ n := hf1
                            omega
                          · rw [hst] at hf1
                            simp [hf1] at hpred
                      · exact hHere _ hhere
                    · simp only [hq, Bool.not_true, Bool.false_eq_true, if_false,
                        ite_false, List.nil_append]
                      exact hHere _ hhere

/-- The line-length check emits strictly increasing line numbers. -/
theorem long_go_pairwise (p : Path) :
    ∀ (ls : List Line) (n : Nat),
      (long_go p n ls).Pairwise (fun d f => d.2.1 < f.2.1) := by
  intro ls
  induction ls with
  | nil => intro n; simp [long_go]
  | cons l ls ih =>
    intro n
    rw [long_go, List.pairwise_append]
    refine ⟨?_, ih (n + 1), ?_⟩
    · split
      · exact List.Pairwise.nil
      · split
        · exact List.pairwise_singleton _ _
        · exact List.Pairwise.nil
    · intro a ha b hb
      have ha' : a = (ERR_LIN, n, p) := by
        split at ha
        · exact absurd ha (List.not_mem_nil a)
        · split at ha
          · exact List.mem_singleton.mp ha
          · exact absurd ha (List.not_mem_nil a)
      obtain ⟨i, l', -, hb', -, -⟩ := (long_go_mem_iff p ls (n + 1) b).mp hb
      rw [ha', hb']
      show n < n + 1 + i
      omega

/-- C5 (amended): in every single check pass, a violation triple
(kind, line, file) is emitted at most once — for the long-line,
import-only, forbidden-character, reserved-notation and forbidden-directive
checks their whole violation list has no duplicates, and for the header
check the list has no duplicates once the `(ERR_COP, 0, path)` triple
(re-emitted for each blank line preceding the copyright block) is
removed. -/
theorem c5_violations_nodup (lines : List Line) (p : Path) (resolve : Path → Path) :
    (long_lines_check lines p).Nodup ∧
    (errsOfB (import_only_check lines p)).Nodup ∧
    (small_alpha_vrachy_check lines p).Nodup ∧
    (reserved_notation_check resolve lines p).Nodup ∧
    (errsOfE (set_option_check lines p)).Nodup ∧
    ((errsOfE (regular_check lines p)).filter
      (fun e => !decide (e = (ERR_COP, 0, p)))).Nodup := by
  have hpe := enumL_pairwise lines 1
  have hpc : (skip_comments false (enumL 1 lines)).Pairwise (fun a b => a.1 < b.1) :=
    hpe.sublist (skip_comments_sublist _ false)
  have hps : (skip_string false false
      (skip_comments false (enumL 1 lines))).Pairwise (fun a b => a.1 < b.1) :=
    hpc.sublist (skip_string_sublist _ false false)
  refine ⟨?_, ?_, ?_, ?_, ?_, ?_⟩
  · exact pairwise_lines_nodup (long_go_pairwise p lines 1)
  · exact pairwise_lines_nodup (import_go_pairwise p _ hpc)
  · exact pairwise_lines_nodup (sav_go_pairwise p _ hps)
  · unfold reserved_notation_check
    split
    · exact List.nodup_nil
    · exact pairwise_lines_nodup (rnt_go_pairwise p _ hps)
  · exact pairwise_lines_nodup (opt_go_pairwise p _ hps)
  · exact regular_go_filter_nodup p lines 1 false false 0 [] (by omega)
      (fun _ => ⟨rfl, rfl⟩)

/-- A concatenation of two lists is nonempty exactly when one part is. -/
theorem append2_ne_nil (a b : List Output) :
    (a ++ b ≠ []) ↔ (a ≠ [] ∨ b ≠ []) := by
  rcases a with - | ⟨x, a⟩ <;> rcases b with - | ⟨y, b⟩ <;> simp

/-- A concatenation of five lists is nonempty exactly when one part is. -/
theorem append5_ne_nil (a b c d e : List Output) :
    (a ++ b ++ c ++ d ++ e ≠ []) ↔
      ((((a ≠ [] ∨ b ≠ []) ∨ c ≠ []) ∨ d ≠ []) ∨ e ≠ []) := by
  rw [append2_ne_nil, append2_ne_nil, append2_ne_nil, append2_ne_nil]

/-- A violation with one of the seven recognised codes always renders at
least one output line. -/
theorem renderErr_ne_nil {e : Err} (h : e.1 ≤ 6) : renderErr e ≠ [] := by
  unfold renderErr
  have h7 : e.1 = 0 ∨ e.1 = 1 ∨ e.1 = 2 ∨ e.1 = 3 ∨ e.1 = 4 ∨ e.1 = 5 ∨ e.1 = 6 := by
    omega
  rcases h7 with h7 | h7 | h7 | h7 | h7 | h7 | h7 <;>
    simp [h7, ERR_COP, ERR_IMP, ERR_MOD, ERR_LIN, ERR_SAV, ERR_RNT, ERR_OPT]

/-- For violations with recognised codes, the reporter's flag is set exactly
when it printed something. -/
theorem format_errors_flag_iff (exc : List (Nat × Path)) (resolve : Path → Path) :
    ∀ (errs : List Err), (∀ e ∈ errs, e.1 ≤ 6) →
      ((format_errors exc resolve errs).2 = true ↔
        (format_errors exc resolve errs).1 ≠ []) := by
  intro errs
  induction errs with
  | nil => intro _; simp [format_errors]
  | cons e rest ih =>
    intro h
    have he : e.1 ≤ 6 := h e (List.mem_cons_self _ _)
    have hrest : ∀ x ∈ rest, x.1 ≤ 6 := fun x hx => h x (List.mem_cons_of_mem _ hx)
    rw [format_errors]
    by_cases hs : suppressedB exc resolve e = true
    · simp only [hs, if_true, ite_true]
      exact ih hrest
    · simp only [hs, if_false, Bool.false_eq_true, ite_false]
      simp only [true_iff]
      intro hcon
      exact renderErr_ne_nil he (List.append_eq_nil.mp hcon).1

/-- Every violation of the reserved-notation check has kind `ERR_RNT`. -/
theorem reserved_notation_check_kinds (resolve : Path → Path) (lines : List Line)
    (p : Path) : ∀ e ∈ reserved_notation_check resolve lines p, e.1 = ERR_RNT := by
  intro e he
  unfold reserved_notation_check at he
  split at he
  · exact absurd he (List.not_mem_nil e)
  · obtain ⟨y, -, hey⟩ := rnt_go_mem p _ e he
    rw [hey]

/-- Every violation printed by `lint` for one file has a recognised code,
so the flag of a normally-completed `lint` is set exactly when it printed
something. -/
theorem lint_flag_iff (exc : List (Nat × Path)) (resolve : Path → Path)
    (lines : List Line) (p : Path) (o : List Output) (f : Bool)
    (h : lint exc resolve lines p = .ok (o, f)) : (f = true ↔ o ≠ []) := by
  have hlong : ∀ e ∈ long_lines_check lines p, e.1 ≤ 6 := by
    intro e he
    have := long_go_kinds p lines 1 e he
    rw [this]
    decide
  have hfmt1 := format_errors_flag_iff exc resolve (long_lines_check lines p) hlong
  unfold lint at h
  cases hio : import_only_check lines p with
  | error err => rw [hio] at h; exact absurd h (by simp)
  | ok bes =>
    rw [hio] at h
    obtain ⟨b, ierrs⟩ := bes
    dsimp only at h
    by_cases hb : b = true
    · rw [if_pos hb] at h
      have himp : ∀ e ∈ ierrs, e.1 ≤ 6 := by
        intro e he
        have he' : e ∈ errsOfB (import_only_check lines p) := by
          rw [hio]; exact he
        obtain ⟨y, -, hey⟩ := import_go_mem p _ e he'
        have h1 : e.1 = ERR_IMP := by rw [hey]
        rw [h1]
        decide
      have hfmt2 := format_errors_flag_iff exc resolve ierrs himp
      injection h with h
      injection h with h1 h2
      rw [← h1, ← h2]
      rw [Bool.or_eq_true, hfmt1, hfmt2]
      exact (append2_ne_nil _ _).symm
    · rw [if_neg hb] at h
      cases hreg : regular_check lines p with
      | error err => rw [hreg] at h; exact absurd h (by simp)
      | ok rerrs =>
        rw [hreg] at h
        cases hopt : set_option_check lines p with
        | error err => rw [hopt] at h; exact absurd h (by simp)
        | ok oerrs =>
          rw [hopt] at h
          dsimp only at h
          have hr : ∀ e ∈ rerrs, e.1 ≤ 6 := by
            intro e he
            have he' : e ∈ errsOfE (regular_check lines p) := by
              rw [hreg]; exact he
            have := (regular_go_facts p lines 1 false false 0 [] e he').2.1
            rcases this with h' | h' | h' <;> (rw [h']; decide)
          have hsav : ∀ e ∈ small_alpha_vrachy_check lines p, e.1 ≤ 6 := by
            intro e he
            obtain ⟨y, -, hey, -⟩ := sav_go_mem p _ e he
            have h1 : e.1 = ERR_SAV := by rw [hey]
            rw [h1]
            decide
          have hrnt : ∀ e ∈ reserved_notation_check resolve lines p, e.1 ≤ 6 := by
            intro e he
            rw [reserved_notation_check_kinds resolve lines p e he]
            decide
          have hoerrs : ∀ e ∈ oerrs, e.1 ≤ 6 := by
            intro e he
            have he' : e ∈ errsOfE (set_option_check lines p) := by
              rw [hopt]; exact he
            obtain ⟨y, -, hey⟩ := opt_go_mem p _ e he'
            have h1 : e.1 = ERR_OPT := by rw [hey]
            rw [h1]
            decide
          have hfmt3 := format_errors_flag_iff exc resolve rerrs hr
          have hfmt4 := format_errors_flag_iff exc resolve
            (small_alpha_vrachy_check lines p) hsav
          have hfmt5 := format_errors_flag_iff exc resolve
            (reserved_notation_check resolve lines p) hrnt
          have hfmt6 := format_errors_flag_iff exc resolve oerrs hoerrs
          injection h with h
          injection h with h1 h2
          rw [← h1, ← h2]
          rw [Bool.or_eq_true, Bool.or_eq_true, Bool.or_eq_true, Bool.or_eq_true,
            hfmt1, hfmt3, hfmt4, hfmt5, hfmt6]
          exact (append5_ne_nil _ _ _ _ _).symm

/-- The global flag of a normally-completed run is set exactly when some
violation line was printed. -/
theorem lintAll_flag_iff (exc : List (Nat × Path)) (resolve : Path → Path) :
    ∀ (files : List (List Line × Path)) (o : List Output) (f : Bool),
      lintAll exc resolve files = .ok (o, f) → (f = true ↔ o ≠ []) := by
  intro files
  induction files with
  | nil =>
    intro o f h
    rw [lintAll] at h
    injection h with h
    injection h with h1 h2
    rw [← h1, ← h2]
    simp
  | cons x rest ih =>
    obtain ⟨ls, q⟩ := x
    intro o f h
    rw [lintAll] at h
    cases hl : lint exc resolve ls q with
    | error err => rw [hl] at h; exact absurd h (by simp)
    | ok of1 =>
      rw [hl] at h
      obtain ⟨o1, f1⟩ := of1
      cases hr : lintAll exc resolve rest with
      | error err => rw [hr] at h; simp [Except.map] at h
      | ok of2 =>
        rw [hr] at h
        obtain ⟨o2, f2⟩ := of2
        simp only [Except.map] at h
        injection h with h
        injection h with h1 h2
        rw [← h1, ← h2]
        rw [Bool.or_eq_true, lint_flag_iff exc resolve ls q o1 f1 hl,
          ih o2 f2 hr]
        exact (append2_ne_nil _ _).symm

/-- C8: for a run that completes normally, the process exits non-zero
exactly when at least one new (unsuppressed) violation line was printed and
the loaded baseline was non-empty; with an empty baseline the exit status
is zero even when violations were found. -/
theorem c8_exit_status (exc : List (Nat × Path)) (resolve : Path → Path)
    (files : List (List Line × Path)) (o : List Output) (f : Bool)
    (h : lintAll exc resolve files = .ok (o, f)) :
    mainExitCode exc resolve files = .ok (if o ≠ [] ∧ exc ≠ [] then 1 else 0) := by
  unfold mainExitCode
  rw [h]
  simp only [Except.map]
  congr 1
  have hf := lintAll_flag_iff exc resolve files o f h
  by_cases ho : o = []
  · have hfo : f = false := by
      cases hq : f
      · rfl
      · exact absurd (hf.mp hq) (by simp [ho])
    simp [hfo, ho]
  · have hfo : f = true := hf.mpr ho
    have hexc : (!exc.isEmpty) = true ↔ exc ≠ [] := by
      cases exc <;> simp
    by_cases he : exc = []
    · simp [hfo, ho, he]
    · simp [hfo, ho, he, hexc.mpr he]

/-- C8 witness: an import-only file with no violations, a non-empty
baseline, a normally-completed run. -/
theorem c8_witness :
    mainExitCode [(ERR_COP, "g".toList)] id [(["import a\n".toList], "f".toList)] =
      .ok (if (([] : List Output) ≠ [] ∧
        ([(ERR_COP, ("g".toList : Path))] : List (Nat × Path)) ≠ []) then 1 else 0) :=
  c8_exit_status [(ERR_COP, "g".toList)] id [(["import a\n".toList], "f".toList)]
    [] false (by rfl)

/-- C4 witness: 101 characters of content (plus terminator) violate, 100 do
not. -/
theorem c4_witness :
    (ERR_LIN, 1, ("f".toList : Path)) ∈
      long_lines_check [List.replicate 101 'a' ++ ['\n']] ("f".toList) ∧
    (ERR_LIN, 1, ("f".toList : Path)) ∉
      long_lines_check [List.replicate 100 'a' ++ ['\n']] ("f".toList) := by
  constructor
  · exact (c4_long_lines_threshold [List.replicate 101 'a' ++ ['\n']]
      ("f".toList) 0 (List.replicate 101 'a') rfl (by decide)).mpr (by simp)
  · intro hmem
    have := (c4_long_lines_threshold [List.replicate 100 'a' ++ ['\n']]
      ("f".toList) 0 (List.replicate 100 'a') rfl (by decide)).mp hmem
    simp at this

end LintStyle
